import Mathlib

/-!
Verification of the web-crawler (milestone1/infy.py) and batch indexer
(webscour/indexer/milestone3_indexer.py) against their natural-language
specification.  The Python code is shallowly embedded: pure helpers become
Lean functions, the crawl loop becomes an explicit step function on a crawl
state iterated with fuel, and the external capabilities (HTTP GET, HTML
anchor extraction, URL joining) become oracle parameters.
-/

/-! ## Indexer embedding (milestone3_indexer.py)

A `Document` is one `.html` file of the pages directory: its file name and
the whitespace-split lowercase words of its extracted text (the
tokenization itself is the external `soup.get_text().lower().split()`
capability; the indexer consumes the resulting word list). -/

structure Document where
  name : String
  words : List String

/-- The inverted index: `defaultdict(list)` mapping a term to its posting
list (file names), kept as an association list in insertion order. -/
abbrev Index := List (String × List String)

/-- One `inverted_index[word].append(file)` on a `defaultdict(list)`:
append to the existing entry for the term, or create a new singleton
entry at the end. -/
def postAppend : Index → String → String → Index
  | [], t, d => [(t, [d])]
  | (t', ps) :: rest, t, d =>
    if t' = t then (t', ps ++ [d]) :: rest else (t', ps) :: postAppend rest t d

/-- Processing one document: `for word in set(words): inverted_index[word].append(file)`.
Python's `set(words)` is modelled by `List.dedup` (each distinct word once). -/
def indexDoc (idx : Index) (doc : Document) : Index :=
  doc.words.dedup.foldl (fun i w => postAppend i w doc.name) idx

/-- The whole read-pages loop: fold `indexDoc` over the corpus starting
from the empty `defaultdict`. -/
def buildIndex (corpus : List Document) : Index :=
  corpus.foldl indexDoc []

/-- Dictionary lookup in the association-list model of `inverted_index`. -/
def lookupIdx : Index → String → Option (List String)
  | [], _ => none
  | (t, ps) :: rest, w => if t = w then some ps else lookupIdx rest w

/-- Reference characterisation of a term's posting list: the names of the
corpus documents containing the term, in corpus order. -/
def postingOf (corpus : List Document) (w : String) : List String :=
  (corpus.filter (fun doc => decide (w ∈ doc.words))).map Document.name

/-- The IDF computation: `idf[word] = math.log(doc_count / len(docs))` for
each entry of the inverted index, with `doc_count = ` number of documents
processed. -/
noncomputable def idfTable (corpus : List Document) : List (String × ℝ) :=
  (buildIndex corpus).map
    (fun e => (e.1, Real.log ((corpus.length : ℝ) / (e.2.length : ℝ))))

/-- The indexer run from the directory listing: `none` models a missing
pages directory (the script raises `FileNotFoundError`); otherwise every
file ending in `.html` is counted and indexed and both artifacts are
produced unconditionally — there is no other error path in the script. -/
noncomputable def indexerRun (pagesDir : Option (List Document)) :
    Except String (Index × List (String × ℝ)) :=
  match pagesDir with
  | none => Except.error "Pages folder not found"
  | some files =>
      let corpus := files.filter (fun d => d.name.endsWith ".html")
      Except.ok (buildIndex corpus, idfTable corpus)

/-- The spec's 2-document example corpus: "cat" occurs in both documents,
"dog" in exactly one. -/
def twoDocCorpus : List Document :=
  [⟨"page_1.html", ["cat", "dog"]⟩, ⟨"page_2.html", ["cat"]⟩]

/-! ## URL validation embedding (infy.py, is_valid_url)

String helpers model the exact Python operations on the character list. -/

/-- Python's `str.isspace` characters: ASCII whitespace (tab through CR,
space), the separator control characters 0x1c-0x1f, and the Unicode
space characters. -/
def pyIsSpace (c : Char) : Bool :=
  let n := c.toNat
  (9 ≤ n && n ≤ 13) || n == 32 || (28 ≤ n && n ≤ 31) || n == 0x85 ||
  n == 0xa0 || n == 0x1680 || (0x2000 ≤ n && n ≤ 0x200a) || n == 0x2028 ||
  n == 0x2029 || n == 0x202f || n == 0x205f || n == 0x3000

/-- Python's `str.strip()`: drop `str.isspace` characters from both
ends. -/
def pyStrip (s : String) : String :=
  ⟨((s.data.dropWhile pyIsSpace).reverse.dropWhile pyIsSpace).reverse⟩

/-- Python's `str.lower()` on the ASCII strings at hand. -/
def asciiLower (s : String) : String :=
  ⟨s.data.map Char.toLower⟩

/-- Does the first list start with the second one? (`str.startswith`). -/
def listStartsWith : List Char → List Char → Bool
  | _, [] => true
  | [], _ :: _ => false
  | c :: s, d :: p => c == d && listStartsWith s p

/-- `str.startswith` on strings. -/
def strStartsWith (s p : String) : Bool :=
  listStartsWith s.data p.data

/-- Characters allowed in a URL scheme (`urllib.parse.scheme_chars`). -/
def isSchemeChar (c : Char) : Bool :=
  c.isAlpha || c.isDigit || c = '+' || c = '-' || c = '.'

/-- The scheme split of `urllib.parse.urlsplit`: if a colon occurs at a
positive position, the first character is a letter and everything before
the colon is a scheme character, split off `(scheme, rest)`. -/
def splitScheme (l : List Char) : Option (List Char × List Char) :=
  let pre := l.takeWhile (fun c => c != ':')
  if pre.length < l.length then
    match pre with
    | [] => none
    | c :: _ =>
        if c.isAlpha && pre.all isSchemeChar then
          some (pre, l.drop (pre.length + 1))
        else none
  else none

/-- The WHATWG C0-control-or-space characters that `urlsplit` strips from
the front of a URL (code points up to and including 0x20). -/
def c0ControlOrSpace (c : Char) : Bool := c.toNat ≤ 0x20

/-- The normalisation `urlsplit` performs before parsing (Python 3.7+):
drop leading C0-control/space characters, then remove tab, CR and LF
everywhere. -/
def urlsplitClean (l : List Char) : List Char :=
  (l.dropWhile c0ControlOrSpace).filter
    (fun c => !(c == '\t' || c == '\r' || c == '\n'))

/-- `urlparse(url).scheme`: the scheme of the normalised URL, lowercased
by `urlsplit`, empty if absent. -/
def parseScheme (url : String) : String :=
  match splitScheme (urlsplitClean url.data) with
  | some (pre, _) => ⟨pre.map Char.toLower⟩
  | none => ""

/-- `_splitnetloc`: the netloc extends to the next `/`, `?` or `#`. -/
def netlocPart (r : List Char) : List Char :=
  r.takeWhile (fun c => c != '/' && c != '?' && c != '#')

/-- `urlparse(url).netloc` as the total projection used inside the crawl
loop: after normalisation and removal of any scheme, a netloc is present
exactly when the rest starts with `//`, and extends to the next `/`, `?`
or `#`; case is preserved, as in `urllib`.  This projection is exact
whenever `urlsplit` returns; the raising path (unbalanced IPv6 brackets)
is modelled separately by `urlsplitE`. -/
def netlocOf (url : String) : String :=
  let u := urlsplitClean url.data
  let rest := match splitScheme u with
    | some (_, r) => r
    | none => u
  match rest with
  | '/' :: '/' :: r => ⟨netlocPart r⟩
  | _ => ""

/-- The useless-link prefixes filtered by Task 3. -/
def badStarts : List String := ["mailto:", "javascript:", "tel:", "#"]

/-- `is_valid_url` from infy.py as the total approximation used inside
the crawl model: falsy (empty) input is rejected, the URL is stripped
and lowercased, the bad prefixes are rejected, and otherwise the parsed
scheme must be `http` or `https`.  The source's `urlparse` call can also
raise `ValueError`; that path is modelled faithfully by `is_valid_urlE`
below, and `is_valid_url_agrees` shows this total function coincides
with the source wherever the source returns at all. -/
def is_valid_url (url : String) : Bool :=
  if url = "" then false
  else
    let u := asciiLower (pyStrip url)
    if badStarts.any (fun b => strStartsWith u b) then false
    else parseScheme u == "http" || parseScheme u == "https"

/-- The netloc step of `urlsplit` after the scheme has been split off:
when the rest starts with `//` the netloc extends to the next `/`, `?`
or `#`, and a netloc containing `[` without `]` (or `]` without `[`)
raises `ValueError("Invalid IPv6 URL")`, modelled as an error value. -/
def urlsplitNetloc (scheme : String) (rest : List Char) :
    Except String (String × String) :=
  match rest with
  | '/' :: '/' :: r =>
      if ('[' ∈ netlocPart r ∧ ']' ∉ netlocPart r) ∨
         (']' ∈ netlocPart r ∧ '[' ∉ netlocPart r) then
        Except.error "Invalid IPv6 URL"
      else Except.ok (scheme, ⟨netlocPart r⟩)
  | _ => Except.ok (scheme, "")

/-- Faithful model of `urllib.parse.urlsplit`'s scheme/netloc extraction
including its raising path: the URL is normalised (`urlsplitClean`), the
scheme split off, and the netloc extracted with the unbalanced-bracket
`ValueError`.  (The NFKC netloc check and the bracketed-host validation
of newer CPython are unreachable from the claims' inputs and are not
modelled.) -/
def urlsplitE (url : String) : Except String (String × String) :=
  let u := urlsplitClean url.data
  match splitScheme u with
  | some (pre, r) => urlsplitNetloc ⟨pre.map Char.toLower⟩ r
  | none => urlsplitNetloc "" u

/-- The source `is_valid_url` with its raising path explicit: the
`urlparse` call may raise `ValueError`, which the source does not catch,
so it propagates to the caller; otherwise the scheme test is returned. -/
def is_valid_urlE (url : String) : Except String Bool :=
  if url = "" then Except.ok false
  else
    let u := asciiLower (pyStrip url)
    if badStarts.any (fun b => strStartsWith u b) then Except.ok false
    else (urlsplitE u).map (fun p => p.1 == "http" || p.1 == "https")

/-! ## Fetch-with-retry embedding (infy.py, fetch_with_retry)

The HTTP GET is an oracle from the attempt number to `some` response or
`none` (any exception: timeout, connection error, `raise_for_status`).
The result records the returned value, the number of attempts made, and
the number of 1-second `time.sleep(1)` backoffs performed. -/

/-- The retry loop body from attempt number `attempt` with `remaining`
iterations left: on success return immediately; on failure of the final
attempt return `none` without sleeping; on failure of an earlier attempt
sleep once and continue. -/
def fetchAttempts {ρ : Type} (get : Nat → Option ρ) :
    Nat → Nat → Option ρ × Nat × Nat
  | _, 0 => (none, 0, 0)
  | attempt, 1 =>
      match get attempt with
      | some r => (some r, 1, 0)
      | none => (none, 1, 0)
  | attempt, n + 2 =>
      match get attempt with
      | some r => (some r, 1, 0)
      | none =>
          let rest := fetchAttempts get (attempt + 1) (n + 1)
          (rest.1, rest.2.1 + 1, rest.2.2 + 1)

/-- `fetch_with_retry(url, retries)`: `for attempt in range(1, retries+1)`.
Returns (result, attempts made, sleeps performed). -/
def fetch_with_retry {ρ : Type} (get : Nat → Option ρ) (retries : Nat) :
    Option ρ × Nat × Nat :=
  fetchAttempts get 1 retries

/-! ## Crawl-engine embedding (infy.py, crawl)

Oracles: `f` maps a URL to `some hrefs` (successful fetch, with the raw
anchor hrefs of the page — the BeautifulSoup external capability) or
`none` (total failure of `fetch_with_retry`); `j` is `urljoin`.  The
state records the frontier queue, the visited list (a set: elements are
only added when absent), the duplicate counter, the next page id, and a
ghost trace of the URLs on which `fetch_with_retry` was invoked. -/

structure CrawlState where
  queue : List String
  visited : List String
  duplicates : Nat
  pageId : Nat
  fetched : List String
deriving DecidableEq

/-- Initial state: `queue = [seed_url]`, empty visited set, zero
duplicates, `page_id = 1`. -/
def initState (seed : String) : CrawlState :=
  ⟨[seed], [], 0, 1, []⟩

/-- `queue.append(url)`. -/
def enqueue (q : List String) (u : String) : List String := q ++ [u]

/-- `queue.pop(0)` guarded by non-emptiness: the head and the rest. -/
def dequeueNext : List String → Option (String × List String)
  | [] => none
  | u :: rest => some (u, rest)

/-- The order in which successive `dequeueNext` calls drain a queue. -/
def drainOrder : List String → List String
  | [] => []
  | u :: rest => u :: drainOrder rest

/-- The per-link filter of the loop body: Task 3 (`is_valid_url`) and
Task 4 (same netloc as the seed domain `d`). -/
def linkFilter (d : String) (l : String) : Bool :=
  is_valid_url l && (netlocOf l == d)

/-- One iteration of `while queue and len(visited) < MAX_PAGES`.  `none`
means the loop condition failed and the crawl stops.  `d` is the seed
domain captured at crawl start, `m` the `MAX_PAGES` bound (a Python int,
hence `Int`). -/
def crawlStep (f : String → Option (List String)) (j : String → String → String)
    (d : String) (m : Int) (s : CrawlState) : Option CrawlState :=
  match dequeueNext s.queue with
  | none => none
  | some (u, rest) =>
    if (s.visited.length : Int) < m then
      if u ∈ s.visited then
        some ⟨rest, s.visited, s.duplicates + 1, s.pageId, s.fetched⟩
      else
        match f u with
        | none => some ⟨rest, s.visited, s.duplicates, s.pageId, s.fetched ++ [u]⟩
        | some hrefs =>
            some ⟨((hrefs.map (j u)).filter (linkFilter d)).foldl enqueue rest,
                  s.visited ++ [u], s.duplicates, s.pageId + 1, s.fetched ++ [u]⟩
    else none

/-- Iterate `crawlStep` for at most `fuel` iterations (each actual run of
the loop performs finitely many). -/
def crawlSteps (f : String → Option (List String)) (j : String → String → String)
    (d : String) (m : Int) : Nat → CrawlState → CrawlState
  | 0, s => s
  | n + 1, s =>
      match crawlStep f j d m s with
      | none => s
      | some s' => crawlSteps f j d m n s'

/-- A whole crawl from the seed: the seed domain is
`urlparse(seed_url).netloc`, the frontier starts as `[seed_url]`. -/
def crawlRun (f : String → Option (List String)) (j : String → String → String)
    (seed : String) (m : Int) (fuel : Nat) : CrawlState :=
  crawlSteps f j (netlocOf seed) m fuel (initState seed)

/-- The visited-URL file written on completion: one visited URL per line. -/
def visitedFileLines (s : CrawlState) : List String := s.visited

/-- The final summary: (pages crawled, unique URLs found, duplicate URLs). -/
def crawlSummary (s : CrawlState) : Nat × Nat × Nat :=
  (s.visited.length, s.visited.length, s.duplicates)

/-! ## Concrete oracles for the specification's examples -/

/-- `urljoin` restricted to absolute URLs, where it is the identity; all
example pages carry absolute links only. -/
def idJoin : String → String → String := fun _ l => l

/-- The spec's link-filtering example page on `example.com`. -/
def exFetch : String → Option (List String) := fun u =>
  if u = "https://example.com" then
    some ["https://example.com/a", "https://other.com/b", "mailto:x@y.com"]
  else none

/-- A site where the seed links twice to a second URL whose fetch always
fails: used to exercise the failed-fetch path. -/
def cFetch : String → Option (List String) := fun u =>
  if u = "http://ex.com/" then some ["http://ex.com/u", "http://ex.com/u"]
  else none

/-- The spec's connected 5-page site on `s.com`. -/
def site5 : String → Option (List String) := fun u =>
  if u = "http://s.com/1" then
    some ["http://s.com/2", "http://s.com/3", "http://s.com/4", "http://s.com/5"]
  else if u = "http://s.com/2" then some ["http://s.com/1", "http://s.com/3"]
  else if u = "http://s.com/3" then some ["http://s.com/4"]
  else if u = "http://s.com/4" then some ["http://s.com/5"]
  else if u = "http://s.com/5" then some ["http://s.com/1"]
  else none


/-! ## Indexer lemmas: characterising posting lists -/

/-- Appending a posting only changes the looked-up term's entry, where it
appends the document name (creating the entry when absent). -/
theorem lookupIdx_postAppend (idx : Index) (t d w : String) :
    lookupIdx (postAppend idx t d) w =
      if w = t then some ((lookupIdx idx w).getD [] ++ [d])
      else lookupIdx idx w := by
  induction idx with
  | nil =>
      by_cases h : w = t
      · subst h; simp [postAppend, lookupIdx]
      · have h' : ¬t = w := fun hh => h hh.symm
        simp [postAppend, lookupIdx, h, h']
  | cons p rest ih =>
      obtain ⟨t', ps⟩ := p
      by_cases h1 : t' = t
      · subst h1
        by_cases h2 : t' = w
        · subst h2; simp [postAppend, lookupIdx]
        · have h2' : ¬w = t' := fun hh => h2 hh.symm
          simp [postAppend, lookupIdx, h2, h2']
      · by_cases h2 : t' = w
        · subst h2
          simp [postAppend, lookupIdx, h1]
        · simp [postAppend, lookupIdx, h1, h2, ih]

/-- Folding `postAppend` with a fixed document over a duplicate-free word
list appends the document once to each of those words' entries. -/
theorem lookupIdx_foldPost (d w : String) (l : List String) :
    l.Nodup → ∀ idx : Index,
      lookupIdx (l.foldl (fun i w' => postAppend i w' d) idx) w =
        if w ∈ l then some ((lookupIdx idx w).getD [] ++ [d])
        else lookupIdx idx w := by
  induction l with
  | nil => intro _ idx; simp
  | cons x xs ih =>
      intro hnd idx
      obtain ⟨hx, hxs⟩ := List.nodup_cons.mp hnd
      rw [List.foldl_cons, ih hxs, lookupIdx_postAppend]
      by_cases hw : w = x
      · subst hw
        simp [hx]
      · by_cases hmem : w ∈ xs <;> simp [hw, hmem, Ne.symm hw]

/-- Indexing one document appends its name once to the entry of each word
occurring in the document and leaves the other entries unchanged. -/
theorem lookupIdx_indexDoc (idx : Index) (doc : Document) (w : String) :
    lookupIdx (indexDoc idx doc) w =
      if w ∈ doc.words then some ((lookupIdx idx w).getD [] ++ [doc.name])
      else lookupIdx idx w := by
  rw [indexDoc, lookupIdx_foldPost doc.name w doc.words.dedup (List.nodup_dedup _) idx]
  simp [List.mem_dedup]

/-- Folding the whole corpus extends each term's entry by the names of the
corpus documents containing the term, in corpus order. -/
theorem lookupIdx_foldCorpus (w : String) (corpus : List Document) :
    ∀ idx : Index,
      (lookupIdx (corpus.foldl indexDoc idx) w).getD [] =
        (lookupIdx idx w).getD [] ++ postingOf corpus w := by
  induction corpus with
  | nil => intro idx; simp [postingOf]
  | cons doc rest ih =>
      intro idx
      rw [List.foldl_cons, ih, lookupIdx_indexDoc]
      by_cases hmem : w ∈ doc.words
      · simp [postingOf, hmem, List.append_assoc]
      · simp [postingOf, hmem]

/-- Entries created or extended by `postAppend` are nonempty. -/
theorem postAppend_ne_nil (idx : Index) (t d : String)
    (h : ∀ q ∈ idx, q.2 ≠ []) : ∀ p ∈ postAppend idx t d, p.2 ≠ [] := by
  induction idx with
  | nil =>
      intro p hp
      simp [postAppend] at hp
      subst hp; simp
  | cons q rest ih =>
      obtain ⟨t', ps⟩ := q
      intro p hp
      by_cases h1 : t' = t
      · subst h1
        simp [postAppend] at hp
        rcases hp with hp | hp
        · subst hp; simp
        · exact h p (List.mem_cons_of_mem _ hp)
      · simp [postAppend, h1] at hp
        rcases hp with hp | hp
        · subst hp
          exact h (t', ps) (List.mem_cons_self _ _)
        · exact ih (fun q hq => h q (List.mem_cons_of_mem _ hq)) p hp

/-- Folding `postAppend` over a word list preserves nonemptiness of all
entries. -/
theorem foldPost_ne_nil (d : String) (l : List String) :
    ∀ idx : Index, (∀ q ∈ idx, q.2 ≠ []) →
      ∀ p ∈ l.foldl (fun i w' => postAppend i w' d) idx, p.2 ≠ [] := by
  induction l with
  | nil => intro idx h; simpa using h
  | cons x xs ih =>
      intro idx h
      rw [List.foldl_cons]
      exact ih _ (postAppend_ne_nil idx x d h)

/-- Every posting list of the built index is nonempty. -/
theorem buildIndex_ne_nil (corpus : List Document) :
    ∀ p ∈ buildIndex corpus, p.2 ≠ [] := by
  have main : ∀ (cs : List Document) (idx : Index), (∀ q ∈ idx, q.2 ≠ []) →
      ∀ p ∈ cs.foldl indexDoc idx, p.2 ≠ [] := by
    intro cs
    induction cs with
    | nil => intro idx h; simpa using h
    | cons doc rest ih =>
        intro idx h
        rw [List.foldl_cons]
        exact ih _ (foldPost_ne_nil doc.name doc.words.dedup idx h)
  intro p hp
  exact main corpus [] (by simp) p hp

/-- `postAppend` leaves the key list unchanged, or appends the new key. -/
theorem keys_postAppend (idx : Index) (t d : String) :
    (postAppend idx t d).map Prod.fst =
      if t ∈ idx.map Prod.fst then idx.map Prod.fst
      else idx.map Prod.fst ++ [t] := by
  induction idx with
  | nil => simp [postAppend]
  | cons q rest ih =>
      obtain ⟨t', ps⟩ := q
      by_cases h1 : t' = t
      · subst h1; simp [postAppend]
      · have h1' : ¬t = t' := fun hh => h1 hh.symm
        by_cases h2 : t ∈ rest.map Prod.fst <;>
          simp [postAppend, h1, h1', h2, ih]

/-- `postAppend` preserves distinctness of the keys. -/
theorem keys_nodup_postAppend (idx : Index) (t d : String)
    (h : (idx.map Prod.fst).Nodup) :
    ((postAppend idx t d).map Prod.fst).Nodup := by
  rw [keys_postAppend]
  by_cases hmem : t ∈ idx.map Prod.fst
  · simpa [hmem] using h
  · simp [hmem, List.nodup_append, h]

/-- A word-list fold of `postAppend` preserves distinctness of the keys. -/
theorem keys_nodup_foldPost (d : String) (l : List String) :
    ∀ idx : Index, (idx.map Prod.fst).Nodup →
      ((l.foldl (fun i w' => postAppend i w' d) idx).map Prod.fst).Nodup := by
  induction l with
  | nil => intro idx h; simpa using h
  | cons x xs ih =>
      intro idx h
      rw [List.foldl_cons]
      exact ih _ (keys_nodup_postAppend idx x d h)

/-- The built index has pairwise-distinct keys. -/
theorem buildIndex_keys_nodup (corpus : List Document) :
    ((buildIndex corpus).map Prod.fst).Nodup := by
  have main : ∀ (cs : List Document) (idx : Index), (idx.map Prod.fst).Nodup →
      ((cs.foldl indexDoc idx).map Prod.fst).Nodup := by
    intro cs
    induction cs with
    | nil => intro idx h; simpa using h
    | cons doc rest ih =>
        intro idx h
        rw [List.foldl_cons]
        exact ih _ (keys_nodup_foldPost doc.name doc.words.dedup idx h)
  exact main corpus [] (by simp)

/-- With distinct keys, membership determines the lookup. -/
theorem lookupIdx_eq_of_mem (idx : Index) (h : (idx.map Prod.fst).Nodup) :
    ∀ w ps, (w, ps) ∈ idx → lookupIdx idx w = some ps := by
  induction idx with
  | nil => intro w ps hmem; simp at hmem
  | cons q rest ih =>
      obtain ⟨t, qs⟩ := q
      rw [List.map_cons] at h
      obtain ⟨ht, hrest⟩ := List.nodup_cons.mp h
      intro w ps hmem
      rcases List.mem_cons.mp hmem with hm | hm
      · injection hm with hw hps
        subst hw; subst hps
        simp [lookupIdx]
      · by_cases hwt : t = w
        · subst hwt
          exact absurd (List.mem_map_of_mem Prod.fst hm) ht
        · simpa [lookupIdx, hwt] using ih hrest w ps hm

/-- Main characterisation: every entry of the built inverted index is the
list of names of the corpus documents containing the term, in corpus
order, and is nonempty. -/
theorem buildIndex_posting (corpus : List Document) (w : String)
    (ps : List String) (h : (w, ps) ∈ buildIndex corpus) :
    ps = postingOf corpus w ∧ ps ≠ [] := by
  have hl : lookupIdx (buildIndex corpus) w = some ps :=
    lookupIdx_eq_of_mem _ (buildIndex_keys_nodup corpus) w ps h
  have hg := lookupIdx_foldCorpus w corpus []
  rw [show corpus.foldl indexDoc [] = buildIndex corpus from rfl, hl] at hg
  simp [lookupIdx] at hg
  exact ⟨hg, buildIndex_ne_nil corpus _ h⟩

/-! ## Indexer claims -/

/-- C1: for every term present in the built inverted index, the IDF table
assigns the score `ln(totalDocuments / documentFrequency)` where
`documentFrequency` is the length of that term's posting list; over the
2-document example corpus, "cat" (in both documents) gets idf 0 and "dog"
(in exactly one) gets idf `ln 2`. -/
theorem spec_c1 :
    (∀ (corpus : List Document) (w : String) (ps : List String),
        (w, ps) ∈ buildIndex corpus →
        (w, Real.log ((corpus.length : ℝ) / (ps.length : ℝ))) ∈ idfTable corpus)
    ∧ ("cat", (0 : ℝ)) ∈ idfTable twoDocCorpus
    ∧ ("dog", Real.log 2) ∈ idfTable twoDocCorpus := by
  have hmem : ∀ (corpus : List Document) (w : String) (ps : List String),
      (w, ps) ∈ buildIndex corpus →
      (w, Real.log ((corpus.length : ℝ) / (ps.length : ℝ))) ∈ idfTable corpus := by
    intro corpus w ps h
    exact List.mem_map_of_mem _ h
  have hb : buildIndex twoDocCorpus =
      [("cat", ["page_1.html", "page_2.html"]), ("dog", ["page_1.html"])] := by decide
  have ht : idfTable twoDocCorpus =
      [("cat", Real.log ((2 : ℝ) / (2 : ℝ))), ("dog", Real.log ((2 : ℝ) / (1 : ℝ)))] := by
    rw [idfTable, hb]
    norm_num [twoDocCorpus]
  refine ⟨hmem, ?_, ?_⟩
  · rw [ht]
    norm_num [Real.log_one]
  · rw [ht]
    norm_num

/-- Witness for C1 at the concrete 2-document corpus. -/
theorem spec_c1_witness :
    ("cat", Real.log ((twoDocCorpus.length : ℝ) /
      ((["page_1.html", "page_2.html"] : List String).length : ℝ))) ∈
      idfTable twoDocCorpus :=
  spec_c1.1 twoDocCorpus "cat" ["page_1.html", "page_2.html"] (by decide)

/-- C2 (code evaluated at the failing input): when the pages directory
exists but holds zero documents, the indexer run completes with `ok`,
producing (empty) index and IDF artifacts — it does not signal any error
for the undefined-IDF condition. -/
theorem spec_c2_empty_corpus :
    indexerRun (some []) = Except.ok (([] : Index), ([] : List (String × ℝ))) := rfl

/-- C9: each document contributes at most once to a posting list (so with
distinct file names the posting list is duplicate-free), every
posting-list length is at most the document count, and every IDF score in
the table is non-negative. -/
theorem spec_c9 : ∀ corpus : List Document,
    (∀ (w : String) (ps : List String), (w, ps) ∈ buildIndex corpus →
        ps.length ≤ corpus.length ∧
        ((corpus.map Document.name).Nodup → ps.Nodup))
    ∧ (∀ (w : String) (x : ℝ), (w, x) ∈ idfTable corpus → 0 ≤ x) := by
  intro corpus
  constructor
  · intro w ps h
    obtain ⟨hps, _⟩ := buildIndex_posting corpus w ps h
    subst hps
    constructor
    · rw [postingOf, List.length_map]
      exact List.length_filter_le _ _
    · intro hnd
      have hsub : ((corpus.filter (fun doc => decide (w ∈ doc.words))).map
          Document.name).Sublist (corpus.map Document.name) :=
        (List.filter_sublist corpus).map Document.name
      exact hnd.sublist hsub
  · intro w x hx
    obtain ⟨e, he, heq⟩ := List.mem_map.mp hx
    injection heq with hw hval
    obtain ⟨hps, hne⟩ := buildIndex_posting corpus e.1 e.2 (by simpa using he)
    have h1 : 0 < e.2.length := List.length_pos.mpr hne
    have h2 : e.2.length ≤ corpus.length := by
      rw [hps, postingOf, List.length_map]
      exact List.length_filter_le _ _
    rw [← hval]
    apply Real.log_nonneg
    rw [one_le_div (by exact_mod_cast h1)]
    exact_mod_cast h2

/-- Witness for C9 at the concrete 2-document corpus. -/
theorem spec_c9_witness :
    (["page_1.html", "page_2.html"] : List String).length ≤ twoDocCorpus.length :=
  (((spec_c9 twoDocCorpus).1 "cat" ["page_1.html", "page_2.html"]) (by decide)).1

/-! ## Fetch-with-retry lemmas and claim C5 -/

/-- The retry loop makes at most `remaining` attempts. -/
theorem fetchAttempts_le {ρ : Type} (get : Nat → Option ρ) :
    ∀ r a : Nat, (fetchAttempts get a r).2.1 ≤ r := by
  intro r
  induction r using Nat.twoStepInduction with
  | zero => intro a; simp [fetchAttempts]
  | one => intro a; rcases hg : get a with _ | v <;> simp [fetchAttempts, hg]
  | more n ih ih2 =>
      intro a
      rcases hg : get a with _ | v
      · have := ih2 (a + 1)
        simp [fetchAttempts, hg]
        omega
      · simp [fetchAttempts, hg]

/-- If attempt `a + k` succeeds and all earlier attempts fail, the loop
returns that success after exactly `k + 1` attempts and `k` sleeps. -/
theorem fetchAttempts_success {ρ : Type} (get : Nat → Option ρ) :
    ∀ (r k a : Nat) (v : ρ), k < r → get (a + k) = some v →
      (∀ j, j < k → get (a + j) = none) →
      fetchAttempts get a r = (some v, k + 1, k) := by
  intro r
  induction r using Nat.twoStepInduction with
  | zero => intro k a v hk; exact absurd hk (by omega)
  | one =>
      intro k a v hk hv hnone
      have hk0 : k = 0 := by omega
      subst hk0
      rw [Nat.add_zero] at hv
      simp [fetchAttempts, hv]
  | more n ih ih2 =>
      intro k a v hk hv hnone
      cases k with
      | zero =>
          rw [Nat.add_zero] at hv
          simp [fetchAttempts, hv]
      | succ k' =>
          have h0 : get a = none := by simpa using hnone 0 (by omega)
          have hv' : get ((a + 1) + k') = some v := by
            rw [show (a + 1) + k' = a + (k' + 1) by omega]
            exact hv
          have hnone' : ∀ j, j < k' → get ((a + 1) + j) = none := by
            intro j hj
            rw [show (a + 1) + j = a + (j + 1) by omega]
            exact hnone (j + 1) (by omega)
          have hrest := ih2 k' (a + 1) v (by omega) hv' hnone'
          simp [fetchAttempts, h0, hrest]

/-- If every attempt fails, the loop returns `none` after all `remaining`
attempts with one sleep between consecutive attempts and none after the
last one. -/
theorem fetchAttempts_fail {ρ : Type} (get : Nat → Option ρ) :
    ∀ r a : Nat, (∀ j, j < r → get (a + j) = none) →
      fetchAttempts get a r = (none, r, r - 1) := by
  intro r
  induction r using Nat.twoStepInduction with
  | zero => intro a _; simp [fetchAttempts]
  | one =>
      intro a h
      have h0 : get a = none := by simpa using h 0 (by omega)
      simp [fetchAttempts, h0]
  | more n ih ih2 =>
      intro a h
      have h0 : get a = none := by simpa using h 0 (by omega)
      have hrest := ih2 (a + 1) (by
        intro j hj
        rw [show (a + 1) + j = a + (j + 1) by omega]
        exact h (j + 1) (by omega))
      simp [fetchAttempts, h0, hrest]

/-- C5: the fetcher makes at most `maxAttempts` sequential attempts; a
success on attempt `i` (all earlier ones failing) is returned immediately
after `i` attempts and `i - 1` one-second backoffs (none after the
returning attempt); if every attempt fails it returns a failure value —
not an exception — after `maxAttempts` attempts and `maxAttempts - 1`
backoffs, so no backoff follows the final attempt. -/
theorem spec_c5 : ∀ (ρ : Type) (get : Nat → Option ρ) (retries : Nat),
    (fetch_with_retry get retries).2.1 ≤ retries
    ∧ (∀ (i : Nat) (r : ρ), 1 ≤ i → i ≤ retries → get i = some r →
        (∀ j, 1 ≤ j → j < i → get j = none) →
        fetch_with_retry get retries = (some r, i, i - 1))
    ∧ ((∀ j, 1 ≤ j → j ≤ retries → get j = none) →
        fetch_with_retry get retries = (none, retries, retries - 1)) := by
  intro ρ get retries
  refine ⟨fetchAttempts_le get retries 1, ?_, ?_⟩
  · intro i r h1 h2 hv hnone
    have hs := fetchAttempts_success get retries (i - 1) 1 r (by omega)
      (by rw [show 1 + (i - 1) = i by omega]; exact hv)
      (by intro j hj; exact hnone (1 + j) (by omega) (by omega))
    rw [fetch_with_retry, hs, show i - 1 + 1 = i by omega]
  · intro hnone
    exact fetchAttempts_fail get retries 1
      (fun j hj => hnone (1 + j) (by omega) (by omega))

/-- Witness for C5: failures on attempts 1 and 2 and a success on attempt
3 with three attempts allowed yield that success after two backoffs, and
three failures yield a failure result after two backoffs. -/
theorem spec_c5_witness :
    fetch_with_retry (fun j => if j = 3 then some 0 else none) 3 = (some 0, 3, 2)
    ∧ fetch_with_retry (fun _ => (none : Option Nat)) 3 = (none, 3, 2) :=
  ⟨(spec_c5 Nat (fun j => if j = 3 then some 0 else none) 3).2.1 3 0 (by omega)
      (by omega) (by simp)
      (fun j h1 h2 => by simp [show j ≠ 3 by omega]),
   (spec_c5 Nat (fun _ => (none : Option Nat)) 3).2.2 (fun j h1 h2 => rfl)⟩

/-! ## Crawl-engine lemmas -/

/-- Appending each element in turn is appending the whole list. -/
theorem foldl_enqueue (l q : List String) : l.foldl enqueue q = q ++ l := by
  induction l generalizing q with
  | nil => simp
  | cons x xs ih => simp [enqueue, ih, List.append_assoc]

/-- Draining a queue yields exactly its elements in order. -/
theorem drainOrder_eq (q : List String) : drainOrder q = q := by
  induction q with
  | nil => rfl
  | cons x xs ih => simp [drainOrder, ih]

/-- If the loop condition fails, any amount of fuel leaves the state
unchanged. -/
theorem crawlSteps_stable (f : String → Option (List String))
    (j : String → String → String) (d : String) (m : Int) (s : CrawlState)
    (h : crawlStep f j d m s = none) :
    ∀ n : Nat, crawlSteps f j d m n s = s := by
  intro n
  cases n with
  | zero => rfl
  | succ n => simp [crawlSteps, h]

/-- Running `a + b` iterations is running `a` and then `b`. -/
theorem crawlSteps_add (f : String → Option (List String))
    (j : String → String → String) (d : String) (m : Int) :
    ∀ (a b : Nat) (s : CrawlState),
      crawlSteps f j d m (a + b) s =
        crawlSteps f j d m b (crawlSteps f j d m a s) := by
  intro a
  induction a with
  | zero => intro b s; simp [crawlSteps]
  | succ a ih =>
      intro b s
      rw [show a + 1 + b = (a + b) + 1 by omega]
      rcases h : crawlStep f j d m s with _ | s'
      · simp [crawlSteps, h, crawlSteps_stable f j d m s h]
      · simp [crawlSteps, h, ih]

/-- Any URL present in the queue after a step was already in the queue
before it, or passed the validator and matched the seed domain. -/
theorem crawlStep_queue_mem (f : String → Option (List String))
    (j : String → String → String) (d : String) (m : Int)
    (s s' : CrawlState) (h : crawlStep f j d m s = some s') :
    ∀ l ∈ s'.queue, l ∈ s.queue ∨ (is_valid_url l = true ∧ netlocOf l = d) := by
  intro l hl
  rcases hq : s.queue with _ | ⟨u, rest⟩
  · simp [crawlStep, dequeueNext, hq] at h
  · rw [crawlStep, hq] at h
    simp only [dequeueNext] at h
    by_cases hlt : (s.visited.length : Int) < m
    · rw [if_pos hlt] at h
      by_cases hv : u ∈ s.visited
      · rw [if_pos hv] at h
        injection h with h
        subst h
        exact Or.inl (by simp [hq, hl])
      · rw [if_neg hv] at h
        rcases hf : f u with _ | hrefs
        · rw [hf] at h
          injection h with h
          subst h
          exact Or.inl (by simp [hq, hl])
        · rw [hf] at h
          injection h with h
          subst h
          simp only [foldl_enqueue] at hl
          rcases List.mem_append.mp hl with hm | hm
          · exact Or.inl (by simp [hq, hm])
          · have hfil := (List.mem_filter.mp hm).2
            simp only [linkFilter, Bool.and_eq_true, beq_iff_eq] at hfil
            exact Or.inr hfil
    · rw [if_neg hlt] at h
      exact absurd h (by simp)

/-- The queue invariant is preserved by any number of iterations. -/
theorem crawlSteps_queue_inv (f : String → Option (List String))
    (j : String → String → String) (d : String) (m : Int)
    (P : String → Prop) (hP : ∀ l, is_valid_url l = true → netlocOf l = d → P l) :
    ∀ (n : Nat) (s : CrawlState), (∀ l ∈ s.queue, P l) →
      ∀ l ∈ (crawlSteps f j d m n s).queue, P l := by
  intro n
  induction n with
  | zero => intro s h; exact h
  | succ n ih =>
      intro s h
      rcases hs : crawlStep f j d m s with _ | s'
      · simpa [crawlSteps, hs] using h
      · rw [crawlSteps, hs]
        refine ih s' ?_
        intro l hl
        rcases crawlStep_queue_mem f j d m s s' hs l hl with hm | ⟨hval, hnet⟩
        · exact h l hm
        · exact hP l hval hnet

/-- One step never pushes the visited count past the page bound. -/
theorem crawlStep_visited_le (f : String → Option (List String))
    (j : String → String → String) (d : String) (m : Int)
    (s s' : CrawlState) (h : crawlStep f j d m s = some s') :
    s'.visited.length ≤ max s.visited.length m.toNat := by
  rcases hq : s.queue with _ | ⟨u, rest⟩
  · simp [crawlStep, dequeueNext, hq] at h
  · rw [crawlStep, hq] at h
    simp only [dequeueNext] at h
    by_cases hlt : (s.visited.length : Int) < m
    · rw [if_pos hlt] at h
      by_cases hv : u ∈ s.visited
      · rw [if_pos hv] at h
        injection h with h
        subst h
        exact le_max_left _ _
      · rw [if_neg hv] at h
        rcases hf : f u with _ | hrefs
        · rw [hf] at h
          injection h with h
          subst h
          exact le_max_left _ _
        · rw [hf] at h
          injection h with h
          subst h
          simp only [List.length_append, List.length_cons, List.length_nil]
          omega
    · rw [if_neg hlt] at h
      exact absurd h (by simp)

/-- The visited count stays bounded through any number of iterations. -/
theorem crawlSteps_visited_le (f : String → Option (List String))
    (j : String → String → String) (d : String) (m : Int) :
    ∀ (n : Nat) (s : CrawlState),
      (crawlSteps f j d m n s).visited.length ≤ max s.visited.length m.toNat := by
  intro n
  induction n with
  | zero => intro s; exact le_max_left _ _
  | succ n ih =>
      intro s
      rcases hs : crawlStep f j d m s with _ | s'
      · simp [crawlSteps, hs]
      · rw [crawlSteps, hs]
        refine le_trans (ih s') (max_le ?_ (le_max_right _ _))
        exact crawlStep_visited_le f j d m s s' hs

/-! ## Crawl-engine claims -/

/-- C3 counterexample: in the concrete run seeded at `http://ex.com/`
(whose page links twice to `http://ex.com/u`, a URL for which every fetch
attempt fails), the failed URL is passed to the fetcher twice in the same
run — contradicting the claim that after a total fetch failure the URL is
never fetched again even if further copies sit in the frontier. -/
theorem spec_c3_counterexample :
    cFetch "http://ex.com/u" = none
    ∧ (crawlRun cFetch idJoin "http://ex.com/" 5 3).fetched.count "http://ex.com/u" = 2 := by
  constructor
  · decide
  · decide

/-- C3 as amended: when all fetch attempts for a dequeued, not-yet-visited
URL fail, the engine skips it — the URL is not marked visited, nothing is
enqueued, and the counters are unchanged (only the ghost fetch trace
grows); the failure itself does not requeue the URL, but it is not
protected from being fetched again if another copy of it is dequeued
later. -/
theorem spec_c3_amended (f : String → Option (List String))
    (j : String → String → String) (d : String) (m : Int) (s : CrawlState)
    (u : String) (rest : List String)
    (hq : s.queue = u :: rest) (hlt : (s.visited.length : Int) < m)
    (hnv : u ∉ s.visited) (hf : f u = none) :
    crawlStep f j d m s =
      some ⟨rest, s.visited, s.duplicates, s.pageId, s.fetched ++ [u]⟩ := by
  rw [crawlStep, hq]
  simp [dequeueNext, hlt, hnv, hf]

/-- Witness for the amended C3 at a concrete state. -/
theorem spec_c3_witness :
    crawlStep cFetch idJoin "ex.com" 5 ⟨["http://ex.com/u"], [], 0, 1, []⟩ =
      some ⟨[], [], 0, 1, ["http://ex.com/u"]⟩ :=
  spec_c3_amended cFetch idJoin "ex.com" 5 ⟨["http://ex.com/u"], [], 0, 1, []⟩
    "http://ex.com/u" [] rfl (by decide) (by decide) (by decide)

/-- The netloc step passes the scheme through unchanged whenever it
returns. -/
theorem urlsplitNetloc_scheme (sc : String) (rest : List Char)
    (s n : String) (h : urlsplitNetloc sc rest = Except.ok (s, n)) :
    s = sc := by
  rw [urlsplitNetloc.eq_def] at h
  split at h
  · split at h
    · exact absurd h (by simp)
    · injection h with h
      injection h with h1 h2
      exact h1.symm
  · injection h with h
    injection h with h1 h2
    exact h1.symm

/-- When `urlsplit` returns, its scheme is `parseScheme`. -/
theorem urlsplitE_scheme (url : String) (s n : String)
    (h : urlsplitE url = Except.ok (s, n)) : s = parseScheme url := by
  simp only [urlsplitE] at h
  rw [parseScheme]
  rcases hs : splitScheme (urlsplitClean url.data) with _ | ⟨pre, r⟩
  · rw [hs] at h
    exact urlsplitNetloc_scheme _ _ _ _ h
  · rw [hs] at h
    exact urlsplitNetloc_scheme _ _ _ _ h

/-- Wherever the source validator returns at all (`urlsplit` does not
raise), the total approximation `is_valid_url` used by the crawl model
agrees with the faithful fallible model. -/
theorem is_valid_url_agrees (url : String) (v : Bool)
    (h : is_valid_urlE url = Except.ok v) : is_valid_url url = v := by
  simp only [is_valid_urlE] at h
  simp only [is_valid_url]
  by_cases h0 : url = ""
  · rw [if_pos h0] at h ⊢
    injection h with h
  · rw [if_neg h0] at h ⊢
    by_cases hb : badStarts.any
        (fun b => strStartsWith (asciiLower (pyStrip url)) b) = true
    · rw [if_pos hb] at h ⊢
      injection h with h
    · rw [if_neg hb] at h ⊢
      rcases hu : urlsplitE (asciiLower (pyStrip url)) with e | ⟨s, nl⟩ <;>
        rw [hu] at h
      · simp [Except.map] at h
      · simp only [Except.map] at h
        injection h with h
        rw [urlsplitE_scheme _ _ _ hu] at h
        exact h

/-- C4 (code evaluated at the failing input): the claim says the URL
validator returns a boolean in all cases without raising, but the source
propagates `ValueError("Invalid IPv6 URL")` raised by `urlparse` on the
input `"http://["`, which is non-empty, carries no bad prefix, and so
reaches the parse.  The last conjunct checks the modelled `urlsplit`
normalisation: an embedded tab as in `"ht\ttp://x"` is removed and the
URL accepted, as in Python. -/
theorem spec_c4_raises :
    badStarts.any (fun b => strStartsWith (asciiLower (pyStrip "http://[")) b) = false
    ∧ is_valid_urlE "http://[" = Except.error "Invalid IPv6 URL"
    ∧ is_valid_urlE "ht\ttp://x" = Except.ok true :=
  ⟨by decide, rfl, rfl⟩

/-- C6: every URL in the frontier during a crawl is either the seed (put
there at start) or passed the URL validator and has netloc equal to the
seed domain captured at crawl start; on the example page of
`example.com`, of the three links only `https://example.com/a` is
enqueued. -/
theorem spec_c6 :
    (∀ (f : String → Option (List String)) (j : String → String → String)
        (seed : String) (m : Int) (fuel : Nat),
        ∀ l ∈ (crawlRun f j seed m fuel).queue,
          l = seed ∨ (is_valid_url l = true ∧ netlocOf l = netlocOf seed))
    ∧ (crawlRun exFetch idJoin "https://example.com" 10 1).queue =
        ["https://example.com/a"] := by
  constructor
  · intro f j seed m fuel l hl
    refine crawlSteps_queue_inv f j (netlocOf seed) m
      (fun l' => l' = seed ∨ (is_valid_url l' = true ∧ netlocOf l' = netlocOf seed))
      (fun l' hv hn => Or.inr ⟨hv, hn⟩) fuel (initState seed) ?_ l hl
    intro l' hl'
    simp only [initState, List.mem_singleton] at hl'
    exact Or.inl hl'
  · decide

/-- Witness for C6: the one URL enqueued in the example run satisfies the
invariant. -/
theorem spec_c6_witness :
    "https://example.com/a" = "https://example.com"
    ∨ (is_valid_url "https://example.com/a" = true
        ∧ netlocOf "https://example.com/a" = netlocOf "https://example.com") :=
  spec_c6.1 exFetch idJoin "https://example.com" 10 1 "https://example.com/a" (by decide)

/-- C7: the visited count never exceeds the configured page bound in any
run, and with `maxPages = 2` on the connected 5-page site exactly 2 pages
are visited while the frontier is still non-empty when the crawl stops. -/
theorem spec_c7 :
    (∀ (f : String → Option (List String)) (j : String → String → String)
        (seed : String) (m : Int) (fuel : Nat),
        (crawlRun f j seed m fuel).visited.length ≤ m.toNat)
    ∧ (∀ fuel : Nat, 2 ≤ fuel →
        (crawlRun site5 idJoin "http://s.com/1" 2 fuel).visited.length = 2
        ∧ (crawlRun site5 idJoin "http://s.com/1" 2 fuel).queue ≠ []) := by
  constructor
  · intro f j seed m fuel
    have h := crawlSteps_visited_le f j (netlocOf seed) m fuel (initState seed)
    simpa [crawlRun, initState] using h
  · intro fuel hf
    obtain ⟨k, rfl⟩ : ∃ k, fuel = 2 + k := ⟨fuel - 2, by omega⟩
    have hstop : crawlStep site5 idJoin (netlocOf "http://s.com/1") 2
        (crawlSteps site5 idJoin (netlocOf "http://s.com/1") 2 2
          (initState "http://s.com/1")) = none := by decide
    rw [crawlRun, crawlSteps_add, crawlSteps_stable _ _ _ _ _ hstop k]
    exact ⟨by decide, by decide⟩

/-- Witness for C7 at the smallest sufficient fuel. -/
theorem spec_c7_witness :
    (crawlRun site5 idJoin "http://s.com/1" 2 2).visited.length = 2
    ∧ (crawlRun site5 idJoin "http://s.com/1" 2 2).queue ≠ [] :=
  spec_c7.2 2 (by omega)

/-- C8: the frontier is strict FIFO — enqueuing `a` and then `b` onto any
queue makes the drain order end with `a` immediately before `b` (so `a`
is dequeued first), and a dequeue always pops the queue's head.  The
crawl loop uses exactly these operations (`queue.pop(0)` and
`queue.append`), making the traversal breadth-first over discovery
order. -/
theorem spec_c8 :
    (∀ (q : List String) (a b : String),
        drainOrder (enqueue (enqueue q a) b) = drainOrder q ++ [a, b])
    ∧ (∀ (u : String) (r : List String), dequeueNext (u :: r) = some (u, r)) := by
  constructor
  · intro q a b
    simp [drainOrder_eq, enqueue]
  · intro u r
    rfl

/-- C10: with a non-positive page bound the loop body never runs — no
fetch happens, the visited set stays empty, the visited-URL file is
written with no lines, and the summary reports zero pages and zero
duplicates. -/
theorem spec_c10 : ∀ (f : String → Option (List String))
    (j : String → String → String) (seed : String) (m : Int) (fuel : Nat),
    m ≤ 0 →
    crawlRun f j seed m fuel = initState seed
    ∧ (crawlRun f j seed m fuel).fetched = []
    ∧ visitedFileLines (crawlRun f j seed m fuel) = []
    ∧ crawlSummary (crawlRun f j seed m fuel) = (0, 0, 0) := by
  intro f j seed m fuel hm
  have hstop : crawlStep f j (netlocOf seed) m (initState seed) = none := by
    have hlen : ¬ (((initState seed).visited.length : Int) < m) := by
      simp [initState]
      omega
    rw [crawlStep]
    simp only [initState, dequeueNext]
    rw [if_neg (by simpa [initState] using hlen)]
  have hrun : crawlRun f j seed m fuel = initState seed := by
    rw [crawlRun]
    exact crawlSteps_stable _ _ _ _ _ hstop fuel
  exact ⟨hrun, by rw [hrun]; rfl, by rw [hrun]; rfl, by rw [hrun]; rfl⟩

/-- Witness for C10 with a negative page bound. -/
theorem spec_c10_witness :
    crawlRun cFetch idJoin "http://ex.com/" (-3) 7 = initState "http://ex.com/" :=
  (spec_c10 cFetch idJoin "http://ex.com/" (-3) 7 (by omega)).1
